import Mathlib

/-!
Verification of the bucketed token-index core (`src/vortex.rs`, `src/common.rs`).

Tokens and column names are modelled as byte sequences (`List Nat`), matching
Rust's `String` whose `Ord` is lexicographic on UTF-8 bytes.  The bucket
planner, the document encoder's chunked stream and the query planner's filter
construction are embedded as executable Lean functions; `slice::binary_search`
is embedded by the branchless base/size loop used by the Rust standard library.
-/

namespace Vfts

/-- Bytes of a string; Rust `String` ordering is lexicographic on bytes. -/
abbrev Str := List Nat

/-- Comparison of two bytes, as Rust `u8::cmp`. -/
def natCmp (a b : Nat) : Ordering :=
  if a < b then .lt else if a = b then .eq else .gt

/-- Lexicographic comparison of byte strings, as Rust `str::cmp`. -/
def strCmp : Str → Str → Ordering
  | [], [] => .eq
  | [], _ :: _ => .lt
  | _ :: _, [] => .gt
  | a :: as, b :: bs =>
    match natCmp a b with
    | .eq => strCmp as bs
    | o => o

/-- `BucketType` from `src/vortex.rs`; `Single` must sort before `Multi`. -/
inductive BucketType where
  | Single
  | Multi
deriving DecidableEq

/-- The `#[repr(u8)]` discriminant: `Single = 0`, `Multi = 1`. -/
def BucketType.val : BucketType → Nat
  | .Single => 0
  | .Multi => 1

/-- Derived `Ord` on `BucketType` (compares discriminants). -/
def btCmp (a b : BucketType) : Ordering :=
  natCmp a.val b.val

/-- Derived lexicographic `Ord` on the pair `(String, BucketType)`. -/
def pairCmp (a b : Str × BucketType) : Ordering :=
  match strCmp a.1 b.1 with
  | .eq => btCmp a.2 b.2
  | o => o

/-- The non-strict byte-string order used when sorting the token sample. -/
def strLe (a b : Str) : Prop := strCmp a b ≠ Ordering.gt

instance : DecidableRel strLe := fun a b =>
  inferInstanceAs (Decidable (strCmp a b ≠ Ordering.gt))

/-- Strict order on plan entries: key ascending, `Single` before `Multi`. -/
def keyLt (a b : Str × BucketType) : Prop := pairCmp a b = Ordering.lt

/-- The candidate walk of `select_buckets_from`: emit the previous candidate as
`Multi` on a change of value, as `Single` on the first exact repetition, and
cap the output with a final `Multi` bucket. -/
def bucketWalk (prev : Str) (single_value_emitted : Bool) :
    List Str → List (Str × BucketType)
  | [] => [(prev, BucketType.Multi)]
  | c :: cs =>
    if c ≠ prev then
      (prev, BucketType.Multi) :: bucketWalk c false cs
    else if !single_value_emitted then
      (prev, BucketType.Single) :: bucketWalk c true cs
    else
      bucketWalk c single_value_emitted cs

/-- The candidate boundaries of `select_buckets_from`: the sorted sample's
token at position `floor(idx * len / pivot_count)` for each
`idx < pivot_count` (`sort_unstable` is modelled by sorting under the byte
order, and the `f64` position by the exact rational floor on naturals). -/
def select_candidates (sample_tokens : List Str) (pivot_count : Nat) :
    List Str :=
  (List.range pivot_count).map fun idx =>
    (List.insertionSort strLe sample_tokens).getD
      (idx * (List.insertionSort strLe sample_tokens).length / pivot_count) []

/-- `select_buckets_from` from `src/vortex.rs`.  The two `assert!`s are
modelled as `none`. -/
def select_buckets_from (sample_tokens : List Str) (pivot_count : Nat) :
    Option (List (Str × BucketType)) :=
  if sample_tokens = [] then none
  else if pivot_count = 0 then none
  else
    match select_candidates sample_tokens pivot_count with
    | [] => none
    | first :: rest => some (bucketWalk first false rest)

/-- `BucketType::column_name`: `format!("{token}:{}", (*self) as u8)`, i.e.
the token bytes, a `':'` (byte 58), and the ASCII digit of the discriminant. -/
def BucketType.column_name (self : BucketType) (token : Str) : Str :=
  token ++ [58, 48 + self.val]

/-- `ID_COLUMN = "::id::"` as bytes. -/
def ID_COLUMN : Str := [58, 58, 105, 100, 58, 58]

/-- `CHUNK_SIZE` from `src/vortex.rs`. -/
def CHUNK_SIZE : Nat := 8192

/-- The branchless base/size loop of `slice::binary_search_by` from the Rust
standard library.  `f i` is the comparison of element `i` against the target;
the fuel argument only bounds the iteration count and is initialised to the
slice length, which always suffices since the window at least halves. -/
def bsearch_loop (f : Nat → Ordering) : Nat → Nat → Nat → Nat
  | 0, base, _ => base
  | fuel + 1, base, size =>
    if size ≤ 1 then base
    else
      let half := size / 2
      let mid := base + half
      if f mid = Ordering.gt then
        bsearch_loop f fuel base (size - half)
      else
        bsearch_loop f fuel mid (size - half)

/-- `slice::binary_search_by` on a list: `Except.ok i` is `Ok(i)` (an exact
match at `i`), `Except.error i` is `Err(i)` (insertion point `i`). -/
def rust_binary_search_by (l : List α) (d : α) (f : α → Ordering) :
    Except Nat Nat :=
  if l.length = 0 then .error 0
  else
    let g := fun i => f (l.getD i d)
    let base := bsearch_loop g l.length 0 l.length
    match g base with
    | .eq => .ok base
    | .lt => .error (base + 1)
    | .gt => .error base

/-- The document encoder's bucket resolution from `document_array_stream`:
binary search of the plan for the key `(token, Single)`; on `Err(idx)` the
destination is `idx - 1`, clamped to `0` when `idx == 0`. -/
def resolve_bucket (buckets : List (Str × BucketType)) (token : Str) : Nat :=
  match rust_binary_search_by buckets ([], BucketType.Single)
      (fun p => pairCmp p (token, BucketType.Single)) with
  | .ok idx => idx
  | .error idx => if idx = 0 then 0 else idx - 1

/-- One step of the token-grouping loop: `entries_to_append[idx].push(token)`
where `idx` is the resolved bucket of `token`. -/
def push_token (buckets : List (Str × BucketType)) (entries : List (List Str))
    (token : Str) : List (List Str) :=
  let idx := resolve_bucket buckets token
  entries.set idx (entries.getD idx [] ++ [token])

/-- The per-document contents of `entries_to_append` after grouping all of the
document's tokens by their resolved bucket (`entries_to_append` starts, and is
left, empty for every document, so it is modelled per document). -/
def bucket_entries (buckets : List (Str × BucketType)) (tokens : List Str) :
    List (List Str) :=
  tokens.foldl (push_token buckets) (buckets.map fun _ => [])

/-- One encoded column value of one document: a presence boolean for a
`Single` bucket, the accumulated token list for a `Multi` bucket. -/
inductive Cell where
  | single (b : Bool)
  | multi (ts : List Str)
deriving DecidableEq

/-- The drain loop of `document_array_stream` for one document: for bucket
`idx`, a `Single` bucket appends `!entries.is_empty()` and a `Multi` bucket
appends the drained entry list. -/
def encode_document_row (buckets : List (Str × BucketType))
    (tokens : List Str) : List Cell :=
  let entries := bucket_entries buckets tokens
  (List.range buckets.length).map fun idx =>
    match (buckets.getD idx ([], BucketType.Single)).2 with
    | .Single => Cell.single (!(entries.getD idx []).isEmpty)
    | .Multi => Cell.multi (entries.getD idx [])

/-- One encoded document: the id column value followed by the bucket cells. -/
def encode_document (buckets : List (Str × BucketType))
    (doc : Nat × List Str) : Nat × List Cell :=
  (doc.1, encode_document_row buckets doc.2)

/-- The chunking loop of `document_array_stream`: documents are appended to
the current chunk until it holds `CHUNK_SIZE` of them, at which point the
chunk is flushed and a fresh one is started; when the source is exhausted the
current (possibly empty) chunk is still flushed.  `doc_count` counts the
documents in the current chunk `acc` (held in reverse). -/
def document_array_stream_loop (buckets : List (Str × BucketType))
    (acc : List (Nat × List Cell)) (doc_count : Nat) :
    List (Nat × List Str) → List (List (Nat × List Cell))
  | [] => [acc.reverse]
  | d :: ds =>
    let acc' := encode_document buckets d :: acc
    if doc_count + 1 < CHUNK_SIZE then
      document_array_stream_loop buckets acc' (doc_count + 1) ds
    else
      acc'.reverse :: document_array_stream_loop buckets [] 0 ds

/-- The batches emitted by `document_array_stream` for a fixed plan: each
batch is the list of encoded documents of one chunk. -/
def document_array_stream (buckets : List (Str × BucketType))
    (docs : List (Nat × List Str)) : List (List (Nat × List Cell)) :=
  document_array_stream_loop buckets [] 0 docs

/-- `vortex_index`: the bucket plan is derived from the sample first, and the
stream is written to the file only afterwards; a planning failure therefore
yields no batches at all (`none` models the abort before any file I/O). -/
def vortex_index (sample_tokens : List Str) (pivot_count : Nat)
    (docs : List (Nat × List Str)) : Option (List (List (Nat × List Cell))) :=
  (select_buckets_from sample_tokens pivot_count).map
    fun buckets => document_array_stream buckets docs

/-- The predicate expressions built by `create_filter` (`vortex_expr` terms
and `ListContainsExpr` from `src/vortex_list_expr.rs`). -/
inductive Pred where
  | getItem (name : Str)
  | listContains (lhs : Pred) (token : Str)
  | and (l r : Pred)
  | lit (b : Bool)
deriving DecidableEq

/-- The query planner's bucket resolution from `create_filter`: binary search
of the stored schema's column names for the token's `Single` column name; on
`Err(idx)` with `idx < 1` the pair `(1, Multi)` is used, otherwise
`(idx - 1, Multi)`. -/
def resolve_query (names : List Str) (token : Str) : Nat × BucketType :=
  match rust_binary_search_by names []
      (fun name => strCmp name (BucketType.Single.column_name token)) with
  | .ok idx => (idx, BucketType.Single)
  | .error idx =>
    if idx < 1 then (1, BucketType.Multi) else (idx - 1, BucketType.Multi)

/-- The per-token expression of `create_filter`: `get_item` on the resolved
column for a `Single` resolution, `ListContainsExpr` over it otherwise. -/
def filter_for_token (names : List Str) (token : Str) : Pred :=
  let r := resolve_query names token
  let get_item := Pred.getItem (names.getD r.1 [])
  match r.2 with
  | .Single => get_item
  | .Multi => Pred.listContains get_item token

/-- `create_filter`: the per-token expressions are reduced with `and`
(`Iterator::reduce` folds from the first element), and an empty token set
yields the literal `false`. -/
def create_filter (names : List Str) (tokens : List Str) : Pred :=
  match tokens.map (filter_for_token names) with
  | [] => Pred.lit false
  | p :: ps => ps.foldl Pred.and p

/-- The stored schema's column names in written order: `ID_COLUMN` first,
then one column name per plan bucket. -/
def schema_names (buckets : List (Str × BucketType)) : List Str :=
  ID_COLUMN :: buckets.map fun b => b.2.column_name b.1

/-- Equality of encoded cells up to the order inside a `Multi` list column:
`Single` booleans must be equal, `Multi` lists must be permutations. -/
def cellPermEq : Cell → Cell → Prop
  | .single a, .single b => a = b
  | .multi xs, .multi ys => xs.Perm ys
  | _, _ => False

/-- Equality of encoded documents up to `Multi` list order: equal ids and
pairwise `cellPermEq` cells. -/
def rowPermEq (r1 r2 : Nat × List Cell) : Prop :=
  r1.1 = r2.1 ∧ List.Forall₂ cellPermEq r1.2 r2.2

/-- Two runs over the same document set: the ids agree and each document's
token traversal sequences are permutations of one another (the code iterates
a per-run randomly-seeded `HashSet<String>`, so only the set is fixed). -/
def sameDocumentSet (d1 d2 : Nat × List Str) : Prop :=
  d1.1 = d2.1 ∧ d1.2.Perm d2.2

/-! ### Order lemmas for byte strings -/

theorem natCmp_eq {a b : Nat} : natCmp a b = Ordering.eq ↔ a = b := by
  unfold natCmp
  split_ifs <;> simp_all
  omega

theorem natCmp_lt {a b : Nat} : natCmp a b = Ordering.lt ↔ a < b := by
  unfold natCmp
  split_ifs <;> simp_all

theorem natCmp_swap (a b : Nat) : natCmp b a = (natCmp a b).swap := by
  unfold natCmp
  split_ifs <;> first | rfl | (exfalso; omega)

theorem strCmp_eq_iff : ∀ {a b : Str}, strCmp a b = Ordering.eq ↔ a = b
  | [], [] => by simp [strCmp]
  | [], _ :: _ => by simp [strCmp]
  | _ :: _, [] => by simp [strCmp]
  | x :: xs, y :: ys => by
    simp only [strCmp]
    cases h : natCmp x y with
    | eq =>
      have hxy : x = y := natCmp_eq.mp h
      subst hxy
      simpa using strCmp_eq_iff (a := xs) (b := ys)
    | lt =>
      have hxy : x < y := natCmp_lt.mp h
      constructor
      · intro hc; cases hc
      · intro hc
        injection hc with h1 _
        omega
    | gt =>
      have hxy : ¬x = y := by
        intro hh; rw [hh, natCmp_eq.mpr rfl] at h; cases h
      constructor
      · intro hc; cases hc
      · intro hc
        injection hc with h1 _
        exact absurd h1 hxy

theorem strCmp_self (a : Str) : strCmp a a = Ordering.eq :=
  strCmp_eq_iff.mpr rfl

theorem strCmp_swap : ∀ (a b : Str), strCmp b a = (strCmp a b).swap
  | [], [] => rfl
  | [], _ :: _ => rfl
  | _ :: _, [] => rfl
  | x :: xs, y :: ys => by
    simp only [strCmp]
    rw [natCmp_swap]
    cases natCmp x y with
    | eq => simpa using strCmp_swap xs ys
    | lt => rfl
    | gt => rfl

theorem strCmp_lt_trans :
    ∀ (a b c : Str), strCmp a b = Ordering.lt → strCmp b c = Ordering.lt →
      strCmp a c = Ordering.lt
  | [], [], _ => by intro h _; cases h
  | [], _ :: _, [] => by intro _ h; cases h
  | [], _ :: _, _ :: _ => by intro _ _; rfl
  | _ :: _, [], _ => by intro h _; cases h
  | _ :: _, _ :: _, [] => by intro _ h; cases h
  | x :: xs, y :: ys, z :: zs => by
    intro h1 h2
    simp only [strCmp] at h1 h2 ⊢
    cases hxy : natCmp x y <;> rw [hxy] at h1 <;> try cases h1
    all_goals cases hyz : natCmp y z <;> rw [hyz] at h2 <;> try cases h2
    · -- x < y, y < z
      rw [natCmp_lt.mpr (Nat.lt_trans (natCmp_lt.mp hxy) (natCmp_lt.mp hyz))]
    · -- x < y, y = z
      rw [natCmp_eq.mp hyz] at hxy
      rw [hxy]
    · -- x = y, y < z
      rw [natCmp_eq.mp hxy]
      rw [hyz]
    · -- x = y, y = z
      rw [natCmp_eq.mp hxy, natCmp_eq.mp hyz, natCmp_eq.mpr rfl]
      exact strCmp_lt_trans xs ys zs h1 h2

theorem strLe_iff {a b : Str} :
    strLe a b ↔ strCmp a b = Ordering.lt ∨ strCmp a b = Ordering.eq := by
  unfold strLe
  cases strCmp a b <;> simp

theorem strLe_refl (a : Str) : strLe a a :=
  strLe_iff.mpr (Or.inr (strCmp_self a))

theorem strLe_of_lt {a b : Str} (h : strCmp a b = Ordering.lt) : strLe a b :=
  strLe_iff.mpr (Or.inl h)

theorem strLt_of_le_of_ne {a b : Str} (h : strLe a b) (hne : a ≠ b) :
    strCmp a b = Ordering.lt := by
  rcases strLe_iff.mp h with h1 | h1
  · exact h1
  · exact absurd (strCmp_eq_iff.mp h1) hne

theorem strLt_le_trans {a b c : Str} (h1 : strCmp a b = Ordering.lt)
    (h2 : strLe b c) : strCmp a c = Ordering.lt := by
  rcases strLe_iff.mp h2 with h3 | h3
  · exact strCmp_lt_trans a b c h1 h3
  · rwa [strCmp_eq_iff.mp h3] at h1

instance : IsTrans Str strLe where
  trans a b c h1 h2 := by
    rcases strLe_iff.mp h1 with h3 | h3
    · exact strLe_of_lt (strLt_le_trans h3 h2)
    · rwa [strCmp_eq_iff.mp h3]

instance : IsTotal Str strLe where
  total a b := by
    cases h : strCmp a b with
    | lt => exact Or.inl (strLe_of_lt h)
    | eq => exact Or.inl (strLe_iff.mpr (Or.inr h))
    | gt =>
      refine Or.inr (strLe_of_lt ?_)
      rw [strCmp_swap, h]
      rfl

theorem keyLt_of_lt {a b : Str × BucketType} (h : strCmp a.1 b.1 = Ordering.lt) :
    keyLt a b := by
  unfold keyLt pairCmp
  rw [h]

theorem keyLt_single_multi {a b : Str × BucketType} (h : a.1 = b.1)
    (h1 : a.2 = BucketType.Single) (h2 : b.2 = BucketType.Multi) : keyLt a b := by
  unfold keyLt pairCmp
  rw [h, strCmp_self, h1, h2]
  rfl

/-! ### Invariants of the bucket planner -/

theorem bucketWalk_invariants (cs : List Str) :
    ∀ (prev : Str) (flag : Bool), (prev :: cs).Pairwise strLe →
      (bucketWalk prev flag cs).Pairwise keyLt ∧
        ∀ p ∈ bucketWalk prev flag cs,
          strLe prev p.1 ∧ (flag = true → p.1 = prev → p.2 = BucketType.Multi) := by
  induction cs with
  | nil =>
    intro prev flag _
    constructor
    · exact List.pairwise_singleton _ _
    · intro p hp
      rw [bucketWalk, List.mem_singleton] at hp
      subst hp
      exact ⟨strLe_refl prev, fun _ _ => rfl⟩
  | cons c cs ih =>
    intro prev flag hchain
    rw [List.pairwise_cons] at hchain
    obtain ⟨hprev, htail⟩ := hchain
    by_cases hcp : c = prev
    · subst hcp
      rw [bucketWalk, if_neg (by simp)]
      cases flag with
      | false =>
        obtain ⟨ihp, ihm⟩ := ih c true htail
        rw [if_pos (by simp)]
        constructor
        · rw [List.pairwise_cons]
          refine ⟨fun p hp => ?_, ihp⟩
          obtain ⟨hle, hmul⟩ := ihm p hp
          rcases strLe_iff.mp hle with hlt | heq
          · exact keyLt_of_lt hlt
          · exact keyLt_single_multi (strCmp_eq_iff.mp heq) rfl
              (hmul rfl (strCmp_eq_iff.mp heq).symm)
        · intro p hp
          rcases List.mem_cons.mp hp with hp | hp
          · subst hp
            exact ⟨strLe_refl c, fun hf => by cases hf⟩
          · exact ⟨(ihm p hp).1, fun hf => by cases hf⟩
      | true =>
        obtain ⟨ihp, ihm⟩ := ih c true htail
        rw [if_neg (by simp)]
        exact ⟨ihp, fun p hp => ⟨(ihm p hp).1, fun _ => (ihm p hp).2 rfl⟩⟩
    · have hlt : strCmp prev c = Ordering.lt :=
        strLt_of_le_of_ne (hprev c (List.mem_cons_self c cs)) (Ne.symm hcp)
      rw [bucketWalk, if_pos (by simpa using hcp)]
      obtain ⟨ihp, ihm⟩ := ih c false htail
      constructor
      · rw [List.pairwise_cons]
        refine ⟨fun p hp => keyLt_of_lt (strLt_le_trans hlt (ihm p hp).1), ihp⟩
      · intro p hp
        rcases List.mem_cons.mp hp with hp | hp
        · subst hp
          exact ⟨strLe_refl prev, fun _ _ => rfl⟩
        · refine ⟨strLe_of_lt (strLt_le_trans hlt (ihm p hp).1), ?_⟩
          intro _ hpe
          have := strLt_le_trans hlt (ihm p hp).1
          rw [hpe, strCmp_self] at this
          cases this

theorem bucketWalk_length (cs : List Str) :
    ∀ (prev : Str) (flag : Bool),
      (bucketWalk prev flag cs).length ≤ cs.length + 1 := by
  induction cs with
  | nil => intro _ _; rfl
  | cons c cs ih =>
    intro prev flag
    rw [bucketWalk]
    split_ifs
    · have := ih c false
      simpa using Nat.succ_le_succ this
    · have := ih c true
      simpa using Nat.succ_le_succ this
    · have := ih c flag
      simp only [List.length_cons]
      omega

theorem bucketWalk_last (cs : List Str) :
    ∀ (prev : Str) (flag : Bool),
      ∃ k, (bucketWalk prev flag cs).getLast? = some (k, BucketType.Multi) := by
  induction cs with
  | nil => intro prev _; exact ⟨prev, rfl⟩
  | cons c cs ih =>
    intro prev flag
    rw [bucketWalk]
    have hlast : ∀ (f : Bool) (q : Str × BucketType), ∃ k,
        (q :: bucketWalk c f cs).getLast? = some (k, BucketType.Multi) := by
      intro f q
      obtain ⟨k, hk⟩ := ih c f
      rcases hw : bucketWalk c f cs with _ | ⟨y, ys⟩
      · rw [hw] at hk; cases hk
      · rw [hw] at hk
        exact ⟨k, by rw [List.getLast?_cons_cons, hk]⟩
    split_ifs
    · exact hlast false _
    · exact hlast true _
    · exact ih c flag

theorem select_candidates_length (sample : List Str) (pivot : Nat) :
    (select_candidates sample pivot).length = pivot := by
  simp [select_candidates]

theorem select_candidates_pairwise (sample : List Str) (pivot : Nat)
    (hs : sample ≠ []) : (select_candidates sample pivot).Pairwise strLe := by
  have hsorted : (List.insertionSort strLe sample).Pairwise strLe :=
    List.sorted_insertionSort strLe sample
  rcases Nat.eq_zero_or_pos pivot with hp | hp
  · subst hp
    simp [select_candidates]
  unfold select_candidates
  rw [List.pairwise_iff_getElem]
  intro i j hi hj hij
  simp only [List.length_map, List.length_range] at hi hj
  simp only [List.getElem_map, List.getElem_range]
  have hlen : 0 < (List.insertionSort strLe sample).length := by
    rw [List.length_insertionSort]
    exact List.length_pos.mpr hs
  have hbound : ∀ k, k < pivot →
      k * (List.insertionSort strLe sample).length / pivot <
        (List.insertionSort strLe sample).length := by
    intro k hk
    rw [Nat.div_lt_iff_lt_mul hp]
    calc k * (List.insertionSort strLe sample).length
        < pivot * (List.insertionSort strLe sample).length :=
          (Nat.mul_lt_mul_right hlen).mpr hk
      _ = (List.insertionSort strLe sample).length * pivot := Nat.mul_comm _ _
  have hmono : i * (List.insertionSort strLe sample).length / pivot ≤
      j * (List.insertionSort strLe sample).length / pivot :=
    Nat.div_le_div_right (Nat.mul_le_mul_right _ (Nat.le_of_lt hij))
  rw [List.getD_eq_getElem?_getD, List.getD_eq_getElem?_getD,
    List.getElem?_eq_getElem (hbound i hi), List.getElem?_eq_getElem (hbound j hj)]
  simp only [Option.getD_some]
  rcases Nat.eq_or_lt_of_le hmono with heq | hlt
  · simp only [heq]
    exact strLe_refl _
  · exact (List.pairwise_iff_getElem.mp hsorted) _ _ _ _ hlt

/-! ### Invariants of the chunked document stream -/

theorem document_array_stream_loop_ne_nil (buckets : List (Str × BucketType)) :
    ∀ (docs : List (Nat × List Str)) (acc : List (Nat × List Cell))
      (doc_count : Nat),
      document_array_stream_loop buckets acc doc_count docs ≠ [] := by
  intro docs
  induction docs with
  | nil => intro acc cnt; rw [document_array_stream_loop]; simp
  | cons d ds ih =>
    intro acc cnt
    rw [document_array_stream_loop]
    split_ifs
    · exact ih _ _
    · simp

theorem document_array_stream_loop_spec (buckets : List (Str × BucketType)) :
    ∀ (docs : List (Nat × List Str)) (acc : List (Nat × List Cell))
      (doc_count : Nat),
      doc_count = acc.length → doc_count < CHUNK_SIZE →
      (∀ b ∈ document_array_stream_loop buckets acc doc_count docs,
          b.length ≤ CHUNK_SIZE) ∧
        (document_array_stream_loop buckets acc doc_count docs).getLast?.map
            List.length = some ((doc_count + docs.length) % CHUNK_SIZE) ∧
        (document_array_stream_loop buckets acc doc_count docs).flatten =
          acc.reverse ++ docs.map (encode_document buckets) := by
  intro docs
  induction docs with
  | nil =>
    intro acc cnt hcnt hlt
    rw [document_array_stream_loop]
    refine ⟨?_, ?_, ?_⟩
    · intro b hb
      rw [List.mem_singleton] at hb
      subst hb
      rw [List.length_reverse, ← hcnt]
      exact Nat.le_of_lt hlt
    · rw [show ([acc.reverse] : List (List (Nat × List Cell))).getLast? =
        some acc.reverse from rfl]
      simp only [Option.map_some', List.length_reverse, List.length_nil,
        Nat.add_zero, ← hcnt]
      rw [Nat.mod_eq_of_lt hlt]
    · simp
  | cons d ds ih =>
    intro acc cnt hcnt hlt
    rw [document_array_stream_loop]
    split_ifs with hfull
    · obtain ⟨h1, h2, h3⟩ :=
        ih (encode_document buckets d :: acc) (cnt + 1) (by simp [hcnt]) hfull
      refine ⟨h1, ?_, ?_⟩
      · rw [h2]
        simp only [List.length_cons]
        have harg : cnt + 1 + ds.length = cnt + (ds.length + 1) := by omega
        rw [harg]
      · rw [h3]
        simp [List.append_assoc]
    · have hflush : cnt + 1 = CHUNK_SIZE := by omega
      obtain ⟨h1, h2, h3⟩ := ih [] 0 rfl (by decide)
      refine ⟨?_, ?_, ?_⟩
      · intro b hb
        rcases List.mem_cons.mp hb with hb | hb
        · subst hb
          rw [List.length_reverse, List.length_cons, ← hcnt, hflush]
        · exact h1 b hb
      · rcases hrec : document_array_stream_loop buckets [] 0 ds with _ | ⟨y, ys⟩
        · exact absurd hrec (document_array_stream_loop_ne_nil buckets ds [] 0)
        · rw [hrec, Nat.zero_add] at h2
          rw [List.getLast?_cons_cons]
          have harg : cnt + (d :: ds).length = CHUNK_SIZE + ds.length := by
            simp only [List.length_cons]
            omega
          rw [harg, Nat.add_mod_left]
          exact h2
      · rw [List.flatten_cons, h3]
        simp [List.append_assoc]

/-! ### Range of the binary search and contents of the per-bucket entries -/

theorem bsearch_loop_range (f : Nat → Ordering) :
    ∀ (fuel base size : Nat), 1 ≤ size →
      base ≤ bsearch_loop f fuel base size ∧
        bsearch_loop f fuel base size < base + size := by
  intro fuel
  induction fuel with
  | zero =>
    intro base size hs
    rw [bsearch_loop]
    omega
  | succ fuel ih =>
    intro base size hs
    simp only [bsearch_loop]
    split_ifs with h1 h2
    · omega
    · obtain ⟨ha, hb⟩ := ih base (size - size / 2) (by omega)
      omega
    · obtain ⟨ha, hb⟩ := ih (base + size / 2) (size - size / 2) (by omega)
      omega

theorem rust_binary_search_by_range (l : List α) (d : α) (f : α → Ordering)
    (h : l ≠ []) :
    (∀ i, rust_binary_search_by l d f = .ok i → i < l.length) ∧
      ∀ i, rust_binary_search_by l d f = .error i → i ≤ l.length := by
  have hlen : ¬l.length = 0 := fun hl => h (List.length_eq_zero.mp hl)
  simp only [rust_binary_search_by, if_neg hlen]
  obtain ⟨h1, h2⟩ :=
    bsearch_loop_range (fun i => f (l.getD i d)) l.length 0 l.length (by omega)
  cases hf : f (l.getD (bsearch_loop (fun i => f (l.getD i d))
      l.length 0 l.length) d) <;>
    refine ⟨fun i hi => ?_, fun i hi => ?_⟩ <;> (try cases hi) <;> omega

theorem resolve_bucket_lt (buckets : List (Str × BucketType)) (token : Str)
    (h : buckets ≠ []) : resolve_bucket buckets token < buckets.length := by
  unfold resolve_bucket
  obtain ⟨hok, herr⟩ := rust_binary_search_by_range buckets
    ([], BucketType.Single) (fun p => pairCmp p (token, BucketType.Single)) h
  have hlen : 0 < buckets.length := List.length_pos.mpr h
  cases hbs : rust_binary_search_by buckets ([], BucketType.Single)
      (fun p => pairCmp p (token, BucketType.Single)) with
  | ok i => exact hok i hbs
  | error i =>
    have := herr i hbs
    show (if i = 0 then 0 else i - 1) < buckets.length
    split_ifs with h0 <;> omega

theorem push_token_getD_self (buckets : List (Str × BucketType))
    (acc : List (List Str)) (t : Str)
    (h : resolve_bucket buckets t < acc.length) :
    (push_token buckets acc t).getD (resolve_bucket buckets t) [] =
      acc.getD (resolve_bucket buckets t) [] ++ [t] := by
  unfold push_token
  rw [List.getD_eq_getElem?_getD, List.getElem?_set_self h, Option.getD_some]

theorem push_token_getD_ne (buckets : List (Str × BucketType))
    (acc : List (List Str)) (t : Str) (j : Nat)
    (h : resolve_bucket buckets t ≠ j) :
    (push_token buckets acc t).getD j [] = acc.getD j [] := by
  unfold push_token
  rw [List.getD_eq_getElem?_getD, List.getElem?_set_ne h,
    ← List.getD_eq_getElem?_getD]

theorem push_token_length (buckets : List (Str × BucketType))
    (acc : List (List Str)) (t : Str) :
    (push_token buckets acc t).length = acc.length := by
  unfold push_token
  exact List.length_set ..

theorem foldl_push_token_getD (buckets : List (Str × BucketType)) :
    ∀ (ts : List Str) (acc : List (List Str)),
      acc.length = buckets.length → ∀ j, j < buckets.length →
      (ts.foldl (push_token buckets) acc).getD j [] =
        acc.getD j [] ++ ts.filter (fun t => resolve_bucket buckets t == j) := by
  intro ts
  induction ts with
  | nil =>
    intro acc _ j _
    simp
  | cons t ts ih =>
    intro acc hlen j hj
    have hne : buckets ≠ [] := by
      intro hb
      rw [hb] at hj
      simp at hj
    have hr : resolve_bucket buckets t < acc.length := by
      rw [hlen]
      exact resolve_bucket_lt buckets t hne
    rw [List.foldl_cons,
      ih (push_token buckets acc t) (by rw [push_token_length, hlen]) j hj,
      List.filter_cons]
    by_cases hj2 : resolve_bucket buckets t = j
    · subst hj2
      rw [push_token_getD_self buckets acc t hr]
      simp [List.append_assoc]
    · rw [push_token_getD_ne buckets acc t j hj2]
      simp [hj2]

theorem bucket_entries_getD (buckets : List (Str × BucketType))
    (tokens : List Str) (j : Nat) (hj : j < buckets.length) :
    (bucket_entries buckets tokens).getD j [] =
      tokens.filter (fun t => resolve_bucket buckets t == j) := by
  unfold bucket_entries
  rw [foldl_push_token_getD buckets tokens _ (by simp) j hj]
  rw [List.getD_eq_getElem?_getD, List.getElem?_map,
    List.getElem?_eq_getElem hj, Option.map_some', Option.getD_some,
    List.nil_append]

theorem encode_document_row_getD (buckets : List (Str × BucketType))
    (tokens : List Str) (j : Nat) (hj : j < buckets.length) :
    (encode_document_row buckets tokens).getD j (Cell.single false) =
      match (buckets.getD j ([], BucketType.Single)).2 with
      | .Single => Cell.single
          (!(tokens.filter (fun t => resolve_bucket buckets t == j)).isEmpty)
      | .Multi => Cell.multi
          (tokens.filter (fun t => resolve_bucket buckets t == j)) := by
  unfold encode_document_row
  have hj' : j < ((List.range buckets.length).map fun idx =>
      match (buckets.getD idx ([], BucketType.Single)).2 with
      | BucketType.Single =>
        Cell.single (!((bucket_entries buckets tokens).getD idx []).isEmpty)
      | BucketType.Multi =>
        Cell.multi ((bucket_entries buckets tokens).getD idx [])).length := by
    simpa using hj
  rw [List.getD_eq_getElem?_getD, List.getElem?_eq_getElem hj',
    Option.getD_some, List.getElem_map, List.getElem_range,
    bucket_entries_getD buckets tokens j hj]

/-! ### Claim theorems -/

/-- C1: on the plan `[("b", Single), ("b", Multi)]` produced by
`select_buckets_from` from the sample `["b", "b"]`, the encoder resolves the
token `"a"` to bucket 0 (schema position 1), while `create_filter` resolves
it to schema position 0 — the `::id::` column — and builds a `ListContains`
over the id column; the two resolution rules therefore disagree. -/
theorem encoder_and_query_resolution_disagree :
    select_buckets_from [[98], [98]] 2 =
        some [([98], BucketType.Single), ([98], BucketType.Multi)] ∧
      resolve_bucket [([98], BucketType.Single), ([98], BucketType.Multi)]
          [97] = 0 ∧
      resolve_query
          (schema_names [([98], BucketType.Single), ([98], BucketType.Multi)])
          [97] = (0, BucketType.Multi) ∧
      filter_for_token
          (schema_names [([98], BucketType.Single), ([98], BucketType.Multi)])
          [97] = Pred.listContains (Pred.getItem ID_COLUMN) [97] ∧
      (resolve_query
          (schema_names [([98], BucketType.Single), ([98], BucketType.Multi)])
          [97]).1 ≠
        resolve_bucket [([98], BucketType.Single), ([98], BucketType.Multi)]
          [97] + 1 := by
  decide

/-- C2 counterexample: on the sample `["a","a","b","c","c","c"]` with bucket
count 3 the claimed plan `[("a", Single), ("b", Multi), ("c", Multi)]` is not
what `select_buckets_from` returns. -/
theorem sample_plan_claim_refuted :
    select_buckets_from [[97], [97], [98], [99], [99], [99]] 3 ≠
      some [([97], BucketType.Single), ([98], BucketType.Multi),
        ([99], BucketType.Multi)] := by
  decide

/-- C2 amended: the candidates at sorted positions 0, 2, 4 are the distinct
tokens `"a"`, `"b"`, `"c"`, so no `Single` bucket is emitted and the plan is
`[("a", Multi), ("b", Multi), ("c", Multi)]`. -/
theorem sample_plan_actual :
    select_buckets_from [[97], [97], [98], [99], [99], [99]] 3 =
      some [([97], BucketType.Multi), ([98], BucketType.Multi),
        ([99], BucketType.Multi)] := by
  decide

/-- C3: for every non-empty sample and bucket count at least 1, the plan
returned by `select_buckets_from` is strictly sorted by (key ascending,
`Single` before `Multi` at equal keys), has length at most bucket count + 1,
and its last element has type `Multi`. -/
theorem plan_invariants (sample : List Str) (pivot : Nat)
    (plan : List (Str × BucketType)) (hs : sample ≠ []) (hp : 1 ≤ pivot)
    (h : select_buckets_from sample pivot = some plan) :
    plan.Pairwise keyLt ∧ plan.length ≤ pivot + 1 ∧
      ∃ k, plan.getLast? = some (k, BucketType.Multi) := by
  have hp0 : ¬pivot = 0 := by omega
  unfold select_buckets_from at h
  rw [if_neg hs, if_neg hp0] at h
  rcases hcand : select_candidates sample pivot with _ | ⟨first, rest⟩
  · rw [hcand] at h
    cases h
  · rw [hcand] at h
    have hplan : bucketWalk first false rest = plan := by
      injection h
    subst hplan
    have hpw : (first :: rest).Pairwise strLe := by
      rw [← hcand]
      exact select_candidates_pairwise sample pivot hs
    have hrest : rest.length + 1 = pivot := by
      have hc := select_candidates_length sample pivot
      rw [hcand] at hc
      simpa using hc
    refine ⟨(bucketWalk_invariants rest first false hpw).1, ?_,
      bucketWalk_last rest first false⟩
    have := bucketWalk_length rest first false
    omega

/-- Witness for C3 at the sample `["a"]` with bucket count 1. -/
theorem plan_invariants_witness :
    List.Pairwise keyLt [(([97] : Str), BucketType.Multi)] ∧
      ([(([97] : Str), BucketType.Multi)]).length ≤ 1 + 1 ∧
      ∃ k, ([(([97] : Str), BucketType.Multi)]).getLast? =
        some (k, BucketType.Multi) :=
  plan_invariants [[97]] 1 [([97], BucketType.Multi)] (by decide) (by decide)
    (by decide)

/-- C4: on the plan `[("c", Single), ("c", Multi)]` produced by
`select_buckets_from` from the sample `["c", "c"]`, the token `"b"` is
lexicographically below every bucket key; the encoder resolves it to
bucket 0, but `create_filter` resolves it to schema position 0, which is the
`::id::` column and not the first bucket (schema position 1). -/
theorem below_all_keys_query_misses_first_bucket :
    select_buckets_from [[99], [99]] 2 =
        some [([99], BucketType.Single), ([99], BucketType.Multi)] ∧
      strCmp [98] [99] = Ordering.lt ∧
      resolve_bucket [([99], BucketType.Single), ([99], BucketType.Multi)]
          [98] = 0 ∧
      resolve_query
          (schema_names [([99], BucketType.Single), ([99], BucketType.Multi)])
          [98] = (0, BucketType.Multi) ∧
      (schema_names
          [([99], BucketType.Single), ([99], BucketType.Multi)]).getD 0 [] =
        ID_COLUMN := by
  decide

/-- The concatenation of the batches emitted by the chunked encoder is
exactly the per-document encoding sequence: chunk boundaries do not affect
the encoded values. -/
theorem document_array_stream_flatten (buckets : List (Str × BucketType))
    (docs : List (Nat × List Str)) :
    (document_array_stream buckets docs).flatten =
      docs.map (encode_document buckets) := by
  unfold document_array_stream
  have h := (document_array_stream_loop_spec buckets docs [] 0 rfl
    (by decide)).2.2
  simpa using h

theorem perm_isEmpty {l1 l2 : List α} (h : l1.Perm l2) :
    l1.isEmpty = l2.isEmpty := by
  have hl := h.length_eq
  cases l1 <;> cases l2 <;> simp_all

theorem encode_document_row_permEq (buckets : List (Str × BucketType))
    {tokens1 tokens2 : List Str} (h : tokens1.Perm tokens2) :
    List.Forall₂ cellPermEq (encode_document_row buckets tokens1)
      (encode_document_row buckets tokens2) := by
  unfold encode_document_row
  rw [List.forall₂_map_left_iff, List.forall₂_map_right_iff, List.forall₂_same]
  intro idx hidx
  have hj : idx < buckets.length := List.mem_range.mp hidx
  have hperm : ((bucket_entries buckets tokens1).getD idx []).Perm
      ((bucket_entries buckets tokens2).getD idx []) := by
    rw [bucket_entries_getD buckets tokens1 idx hj,
      bucket_entries_getD buckets tokens2 idx hj]
    exact h.filter _
  cases hb : (buckets.getD idx ([], BucketType.Single)).2
  · show (!((bucket_entries buckets tokens1).getD idx []).isEmpty) =
      (!((bucket_entries buckets tokens2).getD idx []).isEmpty)
    rw [perm_isEmpty hperm]
  · exact hperm

theorem document_array_stream_loop_rowPermEq (buckets : List (Str × BucketType)) :
    ∀ {docs1 docs2 : List (Nat × List Str)},
      List.Forall₂ sameDocumentSet docs1 docs2 →
      ∀ (acc1 acc2 : List (Nat × List Cell)) (cnt : Nat),
        List.Forall₂ rowPermEq acc1 acc2 →
        List.Forall₂ (List.Forall₂ rowPermEq)
          (document_array_stream_loop buckets acc1 cnt docs1)
          (document_array_stream_loop buckets acc2 cnt docs2) := by
  intro docs1 docs2 h
  induction h with
  | nil =>
    intro acc1 acc2 cnt hacc
    exact List.Forall₂.cons (List.forall₂_reverse_iff.mpr hacc) List.Forall₂.nil
  | @cons d1 d2 t1 t2 hd htl ih =>
    intro acc1 acc2 cnt hacc
    rw [document_array_stream_loop, document_array_stream_loop]
    have hrow : rowPermEq (encode_document buckets d1)
        (encode_document buckets d2) :=
      ⟨hd.1, encode_document_row_permEq buckets hd.2⟩
    split_ifs
    · exact ih _ _ _ (List.Forall₂.cons hrow hacc)
    · exact List.Forall₂.cons
        (List.forall₂_reverse_iff.mpr (List.Forall₂.cons hrow hacc))
        (ih [] [] 0 List.Forall₂.nil)

/-- C5 counterexample: two traversal orders of the same token set
`{"a", "b"}`, as the per-run `HashSet` iteration can produce, encode under
the one-bucket plan `[("a", Multi)]` to batches whose `Multi` list columns
hold the same values in different orders, so the batches are not
identical. -/
theorem stream_multi_order_claim_refuted :
    ([[97], [98]] : List Str).Perm [[98], [97]] ∧
      document_array_stream [([97], BucketType.Multi)] [(0, [[97], [98]])] ≠
        document_array_stream [([97], BucketType.Multi)] [(0, [[98], [97]])] :=
  ⟨List.Perm.swap [98] [97] [], by decide⟩

/-- C5 amended: encoding the same document set twice with the same plan
(same ids, each document's token traversal sequences permutations of one
another) produces batches with the same chunk structure whose per-bucket
column values agree up to the order inside `Multi` list columns: `Single`
booleans and ids are identical and each `Multi` list holds the same values
up to permutation. -/
theorem stream_values_deterministic_up_to_order
    (buckets : List (Str × BucketType)) (docs1 docs2 : List (Nat × List Str))
    (h : List.Forall₂ sameDocumentSet docs1 docs2) :
    List.Forall₂ (List.Forall₂ rowPermEq)
      (document_array_stream buckets docs1)
      (document_array_stream buckets docs2) := by
  unfold document_array_stream
  exact document_array_stream_loop_rowPermEq buckets h [] [] 0 List.Forall₂.nil

/-- Witness for C5 at the one-bucket plan and the two traversal orders of
the token set of the counterexample. -/
theorem stream_values_deterministic_up_to_order_witness :
    List.Forall₂ (List.Forall₂ rowPermEq)
      (document_array_stream [([97], BucketType.Multi)] [(0, [[97], [98]])])
      (document_array_stream [([97], BucketType.Multi)] [(0, [[98], [97]])]) :=
  stream_values_deterministic_up_to_order [([97], BucketType.Multi)] _ _
    (List.Forall₂.cons ⟨rfl, List.Perm.swap [98] [97] []⟩ List.Forall₂.nil)

/-- C6: an empty query token set makes `create_filter` return the literal
`false` predicate. -/
theorem empty_query_literal_false (names : List Str) :
    create_filter names [] = Pred.lit false := rfl

/-- C7: in an encoded document row, a `Single` bucket's cell is `true` iff at
least one of the document's tokens resolves to that bucket, and a `Multi`
bucket's cell is exactly the list of the document's tokens that resolve to
it, in traversal order. -/
theorem cell_semantics (buckets : List (Str × BucketType))
    (tokens : List Str) (j : Nat) (hj : j < buckets.length) :
    ((buckets.getD j ([], BucketType.Single)).2 = BucketType.Single →
      ((encode_document_row buckets tokens).getD j (Cell.single false) =
          Cell.single true ↔ ∃ t ∈ tokens, resolve_bucket buckets t = j)) ∧
      ((buckets.getD j ([], BucketType.Single)).2 = BucketType.Multi →
        (encode_document_row buckets tokens).getD j (Cell.single false) =
          Cell.multi (tokens.filter fun t => resolve_bucket buckets t == j)) := by
  have hrow := encode_document_row_getD buckets tokens j hj
  constructor
  · intro hs
    rw [hs] at hrow
    rw [hrow]
    constructor
    · intro hcell
      have hb : (!(tokens.filter
          fun t => resolve_bucket buckets t == j).isEmpty) = true := by
        injection hcell
      rcases hflt : tokens.filter (fun t => resolve_bucket buckets t == j)
        with _ | ⟨x, xs⟩
      · rw [hflt] at hb
        cases hb
      · have hx : x ∈ tokens.filter (fun t => resolve_bucket buckets t == j) := by
          rw [hflt]
          exact List.mem_cons_self _ _
        obtain ⟨hxt, hxp⟩ := List.mem_filter.mp hx
        exact ⟨x, hxt, by simpa using hxp⟩
    · rintro ⟨t, ht, hres⟩
      have hmem : t ∈ tokens.filter (fun t => resolve_bucket buckets t == j) :=
        List.mem_filter.mpr ⟨ht, by simpa using hres⟩
      rcases hflt : tokens.filter (fun t => resolve_bucket buckets t == j)
        with _ | ⟨x, xs⟩
      · rw [hflt] at hmem
        cases hmem
      · exact rfl
  · intro hm
    rw [hm] at hrow
    rw [hrow]

/-- Witness for C7 at the plan `[("a", Single), ("b", Multi)]` and the
document tokens `["a", "c"]`, bucket 1. -/
theorem cell_semantics_witness :
    (encode_document_row [([97], BucketType.Single), ([98], BucketType.Multi)]
        [[97], [99]]).getD 1 (Cell.single false) =
      Cell.multi ([[97], [99]].filter fun t =>
        resolve_bucket [([97], BucketType.Single), ([98], BucketType.Multi)]
          t == 1) :=
  (cell_semantics [([97], BucketType.Single), ([98], BucketType.Multi)]
    [[97], [99]] 1 (by decide)).2 (by decide)

/-- C8: an empty sample or a zero bucket count makes planning fail, and
since the plan is derived before the index file is written, no batches are
produced at all. -/
theorem planning_violation_aborts (sample : List Str) (pivot : Nat)
    (docs : List (Nat × List Str)) (h : sample = [] ∨ pivot = 0) :
    select_buckets_from sample pivot = none ∧
      vortex_index sample pivot docs = none := by
  have hsel : select_buckets_from sample pivot = none := by
    unfold select_buckets_from
    rcases h with h | h
    · rw [if_pos h]
    · by_cases hs : sample = []
      · rw [if_pos hs]
      · rw [if_neg hs, if_pos h]
  refine ⟨hsel, ?_⟩
  unfold vortex_index
  rw [hsel]
  rfl

/-- Witness for C8 at the empty sample with bucket count 3. -/
theorem planning_violation_aborts_witness :
    select_buckets_from [] 3 = none ∧ vortex_index [] 3 [] = none :=
  planning_violation_aborts [] 3 [] (Or.inl rfl)

/-- C9: the column-name encoding is injective in the pair of bucket type and
token, so the stored schema's names determine the bucket plan. -/
theorem column_name_injective (b1 b2 : BucketType) (t1 t2 : Str)
    (h : b1.column_name t1 = b2.column_name t2) : t1 = t2 ∧ b1 = b2 := by
  unfold BucketType.column_name at h
  obtain ⟨h1, h2⟩ := List.append_inj' h rfl
  refine ⟨h1, ?_⟩
  cases b1 <;> cases b2 <;> revert h2 <;> decide

/-- Witness for C9 at the token `"a"` with type `Single`. -/
theorem column_name_injective_witness :
    ([97] : Str) = [97] ∧ BucketType.Single = BucketType.Single :=
  column_name_injective BucketType.Single BucketType.Single [97] [97] rfl

/-- C10: every batch emitted by the encoder holds at most `CHUNK_SIZE`
documents, and when the document count is a multiple of `CHUNK_SIZE`
(including zero) the stream still ends with a batch of zero documents. -/
theorem chunk_bounds_and_trailing_batch (buckets : List (Str × BucketType))
    (docs : List (Nat × List Str)) :
    (∀ b ∈ document_array_stream buckets docs, b.length ≤ CHUNK_SIZE) ∧
      (docs.length % CHUNK_SIZE = 0 →
        (document_array_stream buckets docs).getLast? = some []) := by
  obtain ⟨h1, h2, _⟩ := document_array_stream_loop_spec buckets docs [] 0 rfl
    (by decide)
  refine ⟨h1, fun hmod => ?_⟩
  rcases hlast : (document_array_stream buckets docs).getLast? with _ | b
  · unfold document_array_stream at hlast
    rw [hlast] at h2
    cases h2
  · unfold document_array_stream at hlast
    rw [hlast, Option.map_some', Nat.zero_add, hmod] at h2
    have hb : b.length = 0 := by
      injection h2
    rw [List.length_eq_zero] at hb
    subst hb
    rfl

/-- Witness for C10 at a one-bucket plan with zero documents. -/
theorem chunk_bounds_and_trailing_batch_witness :
    ([] : List (Nat × List Cell)).length ≤ CHUNK_SIZE ∧
      (document_array_stream [([97], BucketType.Multi)] []).getLast? =
        some [] :=
  ⟨(chunk_bounds_and_trailing_batch [([97], BucketType.Multi)] []).1 []
      (by decide),
    (chunk_bounds_and_trailing_batch [([97], BucketType.Multi)] []).2
      (by decide)⟩

end Vfts
